import Mathlib

/-!
Verification of the sortable-list subsystem of the `suit` admin extension
(`suit/admin.py`), shallowly embedded in Lean.

The embedding follows the Python source:

* `SortableModelAdmin.save_model` assigns the next order value to a newly
  created record: it aggregates `Max` over the stored `order` column,
  computes `max + 1`, and falls back to `1` when adding one raises a
  `TypeError` (i.e. the aggregate is `None`).
* `SortableChangeList.get_ordering` always returns
  `[sortable, "-" ++ pk_name]` regardless of the request and queryset.
* `SortableStackedInlineBase.get_fieldsets` moves the sortable field to the
  front of the first field grouping, removing the first occurrence the
  caller configured in each grouping, and raises `AssertionError` on
  tuple-valued groupings.
* `SortableModelAdmin.__init__` appends the sortable field to
  `list_display` (when configured non-empty), `list_editable` and `exclude`
  when absent.

The reorder-persistence component (`OrderPersister`) has no code in the
repository; it is modelled from the specification where marked.
-/

/-- Python `None`/`0` truthiness of an optional integer primary key:
`not obj.pk` is true exactly when the pk is `None` or `0`. -/
def pyFalsy : Option Nat → Bool
  | none => true
  | some n => n == 0

/-- An object handled by `SortableModelAdmin.save_model`: its primary key
(`None` before the first save) and its integer `order` field. -/
structure OrderedObj where
  pk : Option Nat
  order : Int
deriving Repr, DecidableEq

/-- The stored `order` column values of all records of the model class
(`obj.__class__.objects`); a `none` entry is a SQL `NULL` order value. -/
def OrderColumn : Type := List (Option Int)

/-- Django `aggregate(Max(order))`: the maximum of the non-NULL stored
values, `none` when there are no rows or every value is NULL. -/
def aggregateMax (db : List (Option Int)) : Option Int :=
  db.foldl
    (fun acc o =>
      match acc, o with
      | none, x => x
      | some m, none => some m
      | some m, some v => some (max m v))
    none

/-- A Python `TypeError`, raised by `None + 1`. -/
inductive TypeErr where
  | mk
deriving Repr, DecidableEq

/-- The body of the `try` block in `save_model`:
`max_order["order__max"] + 1`, which raises `TypeError` when the aggregate
is `None`. -/
def addOneOrTypeErr : Option Int → Except TypeErr Int
  | some v => Except.ok (v + 1)
  | none => Except.error TypeErr.mk

/-- The next-order computation of `SortableModelAdmin.save_model`
(spec name: `OrderAssigner.next_order`): `max + 1`, with the
`except TypeError: next_order = 1` fallback. -/
def next_order (db : List (Option Int)) : Int :=
  match addOneOrTypeErr (aggregateMax db) with
  | Except.ok v => v
  | Except.error _ => 1

/-- `SortableModelAdmin.save_model`: when `not obj.pk`, assign
`next_order` of the stored column to the object's sortable field;
otherwise leave the object untouched (the superclass save is the opaque
persistence step and does not touch the field). -/
def SortableModelAdmin.save_model (db : List (Option Int)) (obj : OrderedObj) :
    OrderedObj :=
  if pyFalsy obj.pk then { obj with order := next_order db } else obj

/-- The non-NULL stored order values, for stating what the aggregate max is
a maximum of. -/
def storedVals (db : List (Option Int)) : List Int :=
  db.filterMap id

/-- Sort direction of one ordering entry, for interpreting Django's
string convention (a `"-"` marker means descending). -/
inductive Direction where
  | asc
  | desc
deriving Repr, DecidableEq

/-- Decode one Django ordering string: a leading `'-'` character marks a
descending sort on the remaining field name. -/
def decodeOrderingElem (s : String) : String × Direction :=
  match s.data with
  | '-' :: rest => (String.mk rest, Direction.desc)
  | _ => (s, Direction.asc)

/-- `SortableChangeList.get_ordering`: returns
`[self.model_admin.sortable, "-" + self.model._meta.pk.name]`, ignoring
the `request` and `queryset` parameters. -/
def SortableChangeList.get_ordering {ρ σ : Type} (sortable pkName : String)
    (_request : ρ) (_queryset : σ) : List String :=
  [sortable, "-" ++ pkName]

/-- The `fields` value of one field grouping of a fieldset: the caller may
have configured a Python `list` or a `tuple` of field names. -/
inductive Fields where
  | flist : List String → Fields
  | ftuple : List String → Fields
deriving Repr, DecidableEq

/-- One Django fieldset `(name, {"fields": ...})`: a caption and its field
grouping. -/
structure Fieldset where
  name : String
  fields : Fields
deriving Repr, DecidableEq

/-- The `AssertionError` raised by `get_fieldsets` on tuple-valued field
groupings. -/
inductive AssertionErr where
  | mk
deriving Repr, DecidableEq

/-- The loop body of `SortableStackedInlineBase.get_fieldsets` over the
remaining fieldsets, carrying the `sortable_added` flag: raise on a tuple,
remove the first configured occurrence of the sortable field
(`if sortable in fields: fields.remove(sortable)`), and insert the sortable
at the front of the first grouping reached while the flag is unset. -/
def processFieldsets (sortable : String) :
    Bool → List Fieldset → Except AssertionErr (List Fieldset)
  | _, [] => Except.ok []
  | sortableAdded, fs :: rest =>
    match fs.fields with
    | Fields.ftuple _ => Except.error AssertionErr.mk
    | Fields.flist fields =>
      let fields1 := fields.erase sortable
      let fields2 := if sortableAdded then fields1 else sortable :: fields1
      (processFieldsets sortable true rest).map
        (fun r => { fs with fields := Fields.flist fields2 } :: r)

/-- `SortableStackedInlineBase.get_fieldsets`: process every fieldset with
the `sortable_added` flag initially unset. -/
def SortableStackedInlineBase.get_fieldsets (sortable : String)
    (fieldsets : List Fieldset) : Except AssertionErr (List Fieldset) :=
  processFieldsets sortable false fieldsets

/-- Whether a fieldset's grouping is tuple-valued. -/
def Fieldset.isTuple (fs : Fieldset) : Bool :=
  match fs.fields with
  | Fields.ftuple _ => true
  | Fields.flist _ => false

/-- How many times a field name occurs in a fieldset's grouping. -/
def Fieldset.countField (fs : Fieldset) (f : String) : Nat :=
  match fs.fields with
  | Fields.flist l => l.count f
  | Fields.ftuple l => l.count f

/-- Total number of occurrences of a field name across all groupings. -/
def countFieldTotal (fss : List Fieldset) (f : String) : Nat :=
  (fss.map (fun fs => fs.countField f)).sum

/-- The configurable list attributes of a `ModelAdmin` touched by
`SortableModelAdmin.__init__`; a Python `None` or `()` is modelled as the
empty (falsy) list. -/
structure AdminCfg where
  list_display : List String
  list_editable : List String
  exclude : List String
  ordering : List String
deriving Repr, DecidableEq

/-- `SortableModelAdmin.__init__` after the superclass call: force
`ordering` to the sortable field, and append the sortable field to
`list_display` (only when it is configured truthy), to `list_editable` and
to `exclude`, in each case only when it is not already a member. -/
def SortableModelAdmin.init (sortable : String) (c : AdminCfg) : AdminCfg :=
  let ld :=
    if c.list_display ≠ [] ∧ sortable ∉ c.list_display then
      c.list_display ++ [sortable]
    else c.list_display
  let le :=
    if sortable ∉ c.list_editable then c.list_editable ++ [sortable]
    else c.list_editable
  let ex :=
    if sortable ∉ c.exclude then c.exclude ++ [sortable]
    else c.exclude
  { list_display := ld, list_editable := le, exclude := ex,
    ordering := [sortable] }

/-- A persisted ordered record: unique identifier, grouping scope, and the
integer order value (spec name: `OrderedRecord`). -/
structure OrderedRecord where
  id : Nat
  scope : Nat
  order : Int
deriving Repr, DecidableEq

/-- One drag-and-drop reorder operation (spec name: `ReorderBatch`): the
scope it targets and its ordered `(identifier, new_order)` pairs. -/
structure ReorderBatch where
  scope : Nat
  moves : List (Nat × Int)
deriving Repr, DecidableEq

/-- The `ValidationError` of a malformed or cross-scope batch. -/
inductive ValidationErr where
  | mk
deriving Repr, DecidableEq

/-- Look a record up by identifier in the store. -/
def findRec (s : List OrderedRecord) (i : Nat) : Option OrderedRecord :=
  s.find? (fun r => r.id == i)

/-- Whether one `(identifier, new_order)` pair is valid against the store:
the identifier exists and the record is in the given scope. -/
def moveOk (s : List OrderedRecord) (scope : Nat) (p : Nat × Int) : Bool :=
  match findRec s p.1 with
  | some r => r.scope == scope
  | none => false

/-- Whether every identifier of the batch exists and shares the batch's
scope. -/
def batchValid (s : List OrderedRecord) (b : ReorderBatch) : Bool :=
  b.moves.all (moveOk s b.scope)

/-- Write one record's order value by identifier. -/
def setOrder (s : List OrderedRecord) (i : Nat) (v : Int) :
    List OrderedRecord :=
  s.map (fun r => if r.id == i then { r with order := v } else r)

/-- Apply every `(identifier, new_order)` write of a batch in sequence. -/
def applyMoves (s : List OrderedRecord) (ms : List (Nat × Int)) :
    List OrderedRecord :=
  ms.foldl (fun acc p => setOrder acc p.1 p.2) s

/-- Modelled from the spec: `OrderPersister.apply`, which is not part of
the repository's source (the reorder write path lives in the host
framework). Per the spec it validates that all identifiers in the batch
exist and share one scope, fails with `ValidationError` otherwise with no
partial application, and otherwise applies all writes as one unit. -/
def OrderPersister.apply (s : List OrderedRecord) (b : ReorderBatch) :
    Except ValidationErr (List OrderedRecord) :=
  if batchValid s b then Except.ok (applyMoves s b.moves)
  else Except.error ValidationErr.mk

/-- The stored state after an `OrderPersister.apply` call: the new store on
success, the untouched input store on failure. -/
def stateAfter (s : List OrderedRecord) (b : ReorderBatch) :
    List OrderedRecord :=
  match OrderPersister.apply s b with
  | Except.ok t => t
  | Except.error _ => s

/-- The ordering relation forced by `SortableChangeList.get_ordering`:
order ascending, identifier descending as tie-break. -/
def viewRel (a b : OrderedRecord) : Prop :=
  a.order < b.order ∨ (a.order = b.order ∧ b.id ≤ a.id)

instance : DecidableRel viewRel := fun _ _ =>
  inferInstanceAs (Decidable (_ ∨ _))

/-- `OrderedView`: read the records of one scope sorted by the forced
ordering key `[(order, ascending), (identifier, descending)]`. -/
def orderedView (s : List OrderedRecord) (scope : Nat) :
    List OrderedRecord :=
  List.insertionSort viewRel (s.filter (fun r => r.scope == scope))

/-- The sequence determined by a batch's `new_order` values alone: the
records the batch describes, sorted by new order ascending with descending
identifier as tie-break. -/
def batchSequence (b : ReorderBatch) : List OrderedRecord :=
  List.insertionSort viewRel
    (b.moves.map (fun p => { id := p.1, scope := b.scope, order := p.2 }))

/-- The final order value a sequence of writes leaves on the record with
the given identifier, starting from a default. -/
def lastVal (ms : List (Nat × Int)) (i : Nat) (d : Int) : Int :=
  ms.foldl (fun acc p => if p.1 == i then p.2 else acc) d

/-- The per-record effect of a sequence of writes. -/
def updOrder (ms : List (Nat × Int)) (r : OrderedRecord) : OrderedRecord :=
  { r with order := lastVal ms r.id r.order }

/-- The sort key a record contributes to the forced ordering. -/
def recKey (r : OrderedRecord) : Int × Nat := (r.order, r.id)

/-- The forced ordering on sort keys: first component ascending, second
descending. -/
def keyRel (a b : Int × Nat) : Prop :=
  a.1 < b.1 ∨ (a.1 = b.1 ∧ b.2 ≤ a.2)

instance : DecidableRel keyRel := fun _ _ =>
  inferInstanceAs (Decidable (_ ∨ _))

instance : IsTotal (Int × Nat) keyRel :=
  ⟨by
    intro a b
    rcases lt_trichotomy a.1 b.1 with h | h | h
    · exact Or.inl (Or.inl h)
    · rcases le_total a.2 b.2 with h2 | h2
      · exact Or.inr (Or.inr ⟨h.symm, h2⟩)
      · exact Or.inl (Or.inr ⟨h, h2⟩)
    · exact Or.inr (Or.inl h)⟩

instance : IsTrans (Int × Nat) keyRel :=
  ⟨by
    intro a b c hab hbc
    rcases hab with h1 | ⟨e1, g1⟩
    · rcases hbc with h2 | ⟨e2, _⟩
      · exact Or.inl (h1.trans h2)
      · exact Or.inl (e2 ▸ h1)
    · rcases hbc with h2 | ⟨e2, g2⟩
      · exact Or.inl (e1 ▸ h2)
      · exact Or.inr ⟨e1.trans e2, g2.trans g1⟩⟩

instance : IsAntisymm (Int × Nat) keyRel :=
  ⟨by
    intro a b hab hba
    rcases hab with h1 | ⟨e1, g1⟩
    · rcases hba with h2 | ⟨e2, _⟩
      · exact absurd (h1.trans h2) (lt_irrefl _)
      · exact absurd h1 (e2 ▸ lt_irrefl _)
    · rcases hba with h2 | ⟨_, g2⟩
      · exact absurd h2 (e1 ▸ lt_irrefl _)
      · exact Prod.ext e1 (le_antisymm g2 g1)⟩

instance : IsTotal OrderedRecord viewRel :=
  ⟨fun a b => IsTotal.total (r := keyRel) (recKey a) (recKey b)⟩

instance : IsTrans OrderedRecord viewRel :=
  ⟨fun a b c hab hbc =>
    IsTrans.trans (r := keyRel) (recKey a) (recKey b) (recKey c) hab hbc⟩

/-- The effect of `get_fieldsets` on one fieldset once the
`sortable_added` flag is set: only the first configured occurrence of the
sortable field is removed (a no-op on tuple groupings, which raise before
this point is reached). -/
def eraseSortableField (sortable : String) (fs : Fieldset) : Fieldset :=
  match fs.fields with
  | Fields.flist l => { fs with fields := Fields.flist (l.erase sortable) }
  | Fields.ftuple _ => fs

/-! ### Auxiliary lemmas about the aggregate maximum -/

theorem aggregateMax_some_aux (db : List (Option Int)) (m : Int) :
    db.foldl
      (fun acc o =>
        match acc, o with
        | none, x => x
        | some m', none => some m'
        | some m', some v => some (max m' v))
      (some m) = some ((storedVals db).foldl max m) := by
  induction db generalizing m with
  | nil => rfl
  | cons o db ih =>
    cases o with
    | none => simpa [storedVals] using ih m
    | some v => simpa [storedVals] using ih (max m v)

theorem aggregateMax_eq (db : List (Option Int)) :
    aggregateMax db =
      match storedVals db with
      | [] => none
      | x :: xs => some (xs.foldl max x) := by
  induction db with
  | nil => rfl
  | cons o db ih =>
    cases o with
    | none => simpa [aggregateMax, storedVals] using ih
    | some v =>
      simp only [aggregateMax, storedVals, List.filterMap_cons, id, List.foldl_cons]
      exact aggregateMax_some_aux db v

theorem le_foldl_max_init (xs : List Int) (m : Int) : m ≤ xs.foldl max m := by
  induction xs generalizing m with
  | nil => exact le_refl m
  | cons x xs ih => exact le_trans (le_max_left m x) (ih (max m x))

theorem foldl_max_mem (xs : List Int) (m : Int) :
    xs.foldl max m = m ∨ xs.foldl max m ∈ xs := by
  induction xs generalizing m with
  | nil => exact Or.inl rfl
  | cons x xs ih =>
    rcases ih (max m x) with h | h
    · rcases max_choice m x with hm | hm
      · exact Or.inl (by rw [List.foldl_cons, h, hm])
      · exact Or.inr (by rw [List.foldl_cons, h, hm]; exact List.mem_cons_self x xs)
    · exact Or.inr (List.mem_cons_of_mem x (by rw [List.foldl_cons]; exact h))

theorem foldl_max_ub (xs : List Int) : ∀ m v : Int, v ∈ xs → v ≤ xs.foldl max m := by
  induction xs with
  | nil => intro m v hv; cases hv
  | cons x xs ih =>
    intro m v hv
    rw [List.foldl_cons]
    rcases List.mem_cons.1 hv with h | h
    · subst h
      exact le_trans (le_max_right m v) (le_foldl_max_init xs (max m v))
    · exact ih (max m x) v h


/-- Claim C1: for every scope `S` (the stored order column), the next-order
computation of `SortableModelAdmin.save_model` queries the maximum existing
order value among the records of `S` and returns `M + 1` when that maximum
is `M`, and returns `1` when `S` is empty or the maximum is absent/null. -/
theorem next_order_max_plus_one (S : List (Option Int)) :
    (∀ M : Int, aggregateMax S = some M →
      (M ∈ storedVals S ∧ ∀ v ∈ storedVals S, v ≤ M) ∧
      next_order S = M + 1) ∧
    ((S = [] ∨ aggregateMax S = none) → next_order S = 1) := by
  constructor
  · intro M hM
    constructor
    · rw [aggregateMax_eq] at hM
      rcases hvals : storedVals S with _ | ⟨x, xs⟩
      · rw [hvals] at hM
        cases hM
      · rw [hvals] at hM
        have hfold : xs.foldl max x = M := by
          injection hM
        constructor
        · rcases foldl_max_mem xs x with h | h
          · rw [hfold] at h
            rw [h]
            exact List.mem_cons_self x xs
          · rw [hfold] at h
            exact List.mem_cons_of_mem x h
        · intro v hv
          rcases List.mem_cons.1 hv with h | h
          · subst h
            rw [← hfold]
            exact le_foldl_max_init xs v
          · rw [← hfold]
            exact foldl_max_ub xs x v h
    · simp [next_order, hM, addOneOrTypeErr]
  · rintro (h | h)
    · subst h
      rfl
    · simp [next_order, h, addOneOrTypeErr]

/-- Claim C1, witness: a concrete non-empty column whose maximum is 5
yields 6, and the empty column yields 1. -/
theorem next_order_max_plus_one_witness :
    aggregateMax [some 2, none, some 5] = some 5 ∧
    next_order [some 2, none, some 5] = 6 ∧
    next_order ([] : List (Option Int)) = 1 :=
  ⟨by decide,
   ((next_order_max_plus_one [some 2, none, some 5]).1 5 (by decide)).2,
   (next_order_max_plus_one []).2 (Or.inl rfl)⟩

/-- Claim C7: whenever the aggregate max is absent (`None`), adding one
raises a `TypeError`, which `save_model` swallows: the next order silently
falls back to `1` and a newly created record is assigned order `1`. -/
theorem next_order_typeerr_fallback (db : List (Option Int))
    (obj : OrderedObj) (hagg : aggregateMax db = none)
    (hnew : pyFalsy obj.pk = true) :
    addOneOrTypeErr (aggregateMax db) = Except.error TypeErr.mk ∧
    next_order db = 1 ∧
    (SortableModelAdmin.save_model db obj).order = 1 := by
  refine ⟨by rw [hagg]; rfl, ?_, ?_⟩
  · simp [next_order, hagg, addOneOrTypeErr]
  · simp [SortableModelAdmin.save_model, hnew, next_order, hagg,
      addOneOrTypeErr]

/-- Claim C7, witness: an all-NULL column and a fresh object. -/
theorem next_order_typeerr_fallback_witness :
    addOneOrTypeErr (aggregateMax [none, none]) = Except.error TypeErr.mk ∧
    next_order [none, none] = 1 ∧
    (SortableModelAdmin.save_model [none, none]
      { pk := none, order := 0 }).order = 1 :=
  next_order_typeerr_fallback [none, none] { pk := none, order := 0 }
    (by decide) (by decide)

/-- Claim C6, counterexample: a record with identifier `0` assigned is
Python-falsy (`not obj.pk` is true for `pk == 0`), so `save_model`
recomputes its order (from 5 to 11 here) even though an identifier is
assigned. -/
theorem save_model_pk_zero_reassigns :
    OrderedObj.pk { pk := some 0, order := 5 } = some 0 ∧
    SortableModelAdmin.save_model [some 10] { pk := some 0, order := 5 }
      = { pk := some 0, order := 11 } := by
  constructor
  · rfl
  · decide

/-- Claim C6, amended: for every record whose assigned identifier is
nonzero (Python-truthy), `save_model` leaves the record, and in particular
its order field, unchanged; only the creation path assigns the order. -/
theorem save_model_change_keeps_order (db : List (Option Int))
    (obj : OrderedObj) (k : Nat) (hpk : obj.pk = some k) (hk : k ≠ 0) :
    SortableModelAdmin.save_model db obj = obj := by
  have hfalsy : pyFalsy obj.pk = false := by
    rw [hpk]
    simp [pyFalsy, hk]
  simp [SortableModelAdmin.save_model, hfalsy]

/-- Claim C6, witness: a saved record with identifier 3 keeps order 5. -/
theorem save_model_change_keeps_order_witness :
    SortableModelAdmin.save_model [some 10] { pk := some 3, order := 5 }
      = { pk := some 3, order := 5 } :=
  save_model_change_keeps_order [some 10] { pk := some 3, order := 5 } 3
    rfl (by decide)

/-- Claim C2: for every request and queryset (of any types), the ordering
produced by `SortableChangeList.get_ordering` is independent of both
arguments and decodes to exactly
`[(sortable, ascending), (pk name, descending)]`. -/
theorem get_ordering_constant {ρ σ ρ2 σ2 : Type} (sortable pkName : String)
    (hs : sortable.data.head? ≠ some '-')
    (request : ρ) (queryset : σ) (request2 : ρ2) (queryset2 : σ2) :
    SortableChangeList.get_ordering sortable pkName request queryset
      = SortableChangeList.get_ordering sortable pkName request2 queryset2 ∧
    (SortableChangeList.get_ordering sortable pkName request queryset).map
        decodeOrderingElem
      = [(sortable, Direction.asc), (pkName, Direction.desc)] := by
  constructor
  · rfl
  · have h1 : decodeOrderingElem sortable = (sortable, Direction.asc) := by
      unfold decodeOrderingElem
      split
      · next rest heq => exact absurd (by rw [heq]; rfl) hs
      · rfl
    have h2 : decodeOrderingElem ("-" ++ pkName) = (pkName, Direction.desc) :=
      rfl
    simp [SortableChangeList.get_ordering, h1, h2]

/-- Claim C2, witness: the default `"order"` sortable and an `"id"`
primary key, against two unrelated request/queryset pairs. -/
theorem get_ordering_constant_witness :
    SortableChangeList.get_ordering "order" "id" (0 : Nat) "qs"
      = SortableChangeList.get_ordering "order" "id" true ([1, 2] : List Nat) ∧
    (SortableChangeList.get_ordering "order" "id" (0 : Nat) "qs").map
        decodeOrderingElem
      = [("order", Direction.asc), ("id", Direction.desc)] :=
  get_ordering_constant "order" "id" (by decide) (0 : Nat) "qs" true
    ([1, 2] : List Nat)

/-- Claim C9, counterexample: a caller-configured duplicate survives
construction — with `exclude = ["order", "order"]` the sortable field is
already a member, nothing is appended, and the constructed `exclude` still
contains it twice, so the "at most once" part of the claim fails. -/
theorem sortable_admin_init_dup_counterexample :
    (SortableModelAdmin.init "order"
      { list_display := [], list_editable := [],
        exclude := ["order", "order"], ordering := [] }).exclude.count "order"
      = 2 := by
  decide

/-- Claim C9, amended: after construction the sortable field is always a
member of `list_editable` and of `exclude`, and a member of `list_display`
whenever that was configured non-empty; it is appended only when absent, so
each list contains it at most once provided the caller-configured list
contained it at most once (a caller-supplied duplicate is kept as-is). -/
theorem sortable_admin_init_invariants (sortable : String) (c : AdminCfg)
    (h1 : c.list_display.count sortable ≤ 1)
    (h2 : c.list_editable.count sortable ≤ 1)
    (h3 : c.exclude.count sortable ≤ 1) :
    sortable ∈ (SortableModelAdmin.init sortable c).list_editable ∧
    sortable ∈ (SortableModelAdmin.init sortable c).exclude ∧
    (c.list_display ≠ [] →
      sortable ∈ (SortableModelAdmin.init sortable c).list_display) ∧
    (SortableModelAdmin.init sortable c).list_display.count sortable ≤ 1 ∧
    (SortableModelAdmin.init sortable c).list_editable.count sortable ≤ 1 ∧
    (SortableModelAdmin.init sortable c).exclude.count sortable ≤ 1 ∧
    (SortableModelAdmin.init sortable c).ordering = [sortable] := by
  unfold SortableModelAdmin.init
  by_cases hld : c.list_display ≠ [] ∧ sortable ∉ c.list_display <;>
    by_cases hle : sortable ∈ c.list_editable <;>
      by_cases hex : sortable ∈ c.exclude <;>
        simp only [hld, hle, hex, if_true, if_false, if_pos, if_neg,
          not_true, not_false_iff] <;>
        simp_all [List.count_append, List.count_eq_zero_of_not_mem,
          List.count_eq_zero]

/-- Claim C9, witness: a typical configuration with a name column
displayed, nothing editable and nothing excluded. -/
theorem sortable_admin_init_invariants_witness :
    "order" ∈ (SortableModelAdmin.init "order"
      { list_display := ["name"], list_editable := [], exclude := [],
        ordering := [] }).list_editable ∧
    "order" ∈ (SortableModelAdmin.init "order"
      { list_display := ["name"], list_editable := [], exclude := [],
        ordering := [] }).exclude ∧
    ((["name"] : List String) ≠ [] →
      "order" ∈ (SortableModelAdmin.init "order"
        { list_display := ["name"], list_editable := [], exclude := [],
          ordering := [] }).list_display) ∧
    (SortableModelAdmin.init "order"
      { list_display := ["name"], list_editable := [], exclude := [],
        ordering := [] }).list_display.count "order" ≤ 1 ∧
    (SortableModelAdmin.init "order"
      { list_display := ["name"], list_editable := [], exclude := [],
        ordering := [] }).list_editable.count "order" ≤ 1 ∧
    (SortableModelAdmin.init "order"
      { list_display := ["name"], list_editable := [], exclude := [],
        ordering := [] }).exclude.count "order" ≤ 1 ∧
    (SortableModelAdmin.init "order"
      { list_display := ["name"], list_editable := [], exclude := [],
        ordering := [] }).ordering = ["order"] :=
  sortable_admin_init_invariants "order"
    { list_display := ["name"], list_editable := [], exclude := [],
      ordering := [] } (by decide) (by decide) (by decide)

/-! ### Lemmas about `get_fieldsets` -/

theorem processFieldsets_added (sortable : String) :
    ∀ fss : List Fieldset, (∀ fs ∈ fss, fs.isTuple = false) →
      processFieldsets sortable true fss
        = Except.ok (fss.map (eraseSortableField sortable)) := by
  intro fss
  induction fss with
  | nil => intro _; rfl
  | cons fs rest ih =>
    intro h
    cases hf : fs.fields with
    | ftuple l =>
      have ht := h fs (List.mem_cons_self fs rest)
      rw [Fieldset.isTuple, hf] at ht
      cases ht
    | flist l =>
      simp [processFieldsets, hf,
        ih (fun x hx => h x (List.mem_cons_of_mem fs hx)),
        eraseSortableField, Except.map]

theorem processFieldsets_tuple_error (sortable : String) :
    ∀ (added : Bool) (fss : List Fieldset),
      (∃ fs ∈ fss, fs.isTuple = true) →
      processFieldsets sortable added fss = Except.error AssertionErr.mk := by
  intro added fss
  induction fss generalizing added with
  | nil => rintro ⟨fs, hmem, _⟩; cases hmem
  | cons fs rest ih =>
    rintro ⟨fs0, hmem, ht⟩
    cases hf : fs.fields with
    | ftuple l => simp [processFieldsets, hf]
    | flist l =>
      rcases List.mem_cons.1 hmem with h | h
      · subst h
        rw [Fieldset.isTuple, hf] at ht
        cases ht
      · simp [processFieldsets, hf, ih true ⟨fs0, h, ht⟩, Except.map]

/-- Claim C3, counterexample: a grouping that configures the order field
twice keeps a duplicate — only the first occurrence is removed before the
front insertion, so the order field appears twice in the result instead of
exactly once. -/
theorem get_fieldsets_duplicate_counterexample :
    SortableStackedInlineBase.get_fieldsets "order"
      [{ name := "", fields := Fields.flist ["order", "name", "order"] }]
      = Except.ok
          [{ name := "", fields := Fields.flist ["order", "name", "order"] }] ∧
    countFieldTotal
      [{ name := "", fields := Fields.flist ["order", "name", "order"] }]
      "order" = 2 := by
  constructor
  · rfl
  · decide

/-- Claim C3, amended: `get_fieldsets` removes only the *first* configured
occurrence of the order field from each grouping and inserts the order
field at the head of the first grouping; hence whenever no caller-supplied
grouping contains the order field more than once, the returned fieldsets
have it exactly once, as the first entry of the first grouping, and in no
other grouping. -/
theorem get_fieldsets_sortable_first (sortable : String) (fs0 : Fieldset)
    (rest : List Fieldset)
    (hlist : ∀ fs ∈ fs0 :: rest, fs.isTuple = false)
    (hdup : ∀ fs ∈ fs0 :: rest, fs.countField sortable ≤ 1) :
    ∃ l0 : List String,
      fs0.fields = Fields.flist l0 ∧
      SortableStackedInlineBase.get_fieldsets sortable (fs0 :: rest)
        = Except.ok
            ({ fs0 with fields := Fields.flist (sortable :: l0.erase sortable) }
              :: rest.map (eraseSortableField sortable)) ∧
      sortable ∉ l0.erase sortable ∧
      (∀ fs ∈ rest.map (eraseSortableField sortable),
        fs.countField sortable = 0) ∧
      countFieldTotal
          ({ fs0 with fields := Fields.flist (sortable :: l0.erase sortable) }
            :: rest.map (eraseSortableField sortable)) sortable = 1 := by
  cases h0 : fs0.fields with
  | ftuple l =>
    have ht := hlist fs0 (List.mem_cons_self fs0 rest)
    rw [Fieldset.isTuple, h0] at ht
    cases ht
  | flist l0 =>
    have hc0 : l0.count sortable ≤ 1 := by
      have := hdup fs0 (List.mem_cons_self fs0 rest)
      rwa [Fieldset.countField, h0] at this
    have herase0 : (l0.erase sortable).count sortable = 0 := by
      rw [List.count_erase_self]
      omega
    have hrest : ∀ fs ∈ rest.map (eraseSortableField sortable),
        fs.countField sortable = 0 := by
      intro fs hfs
      rcases List.mem_map.1 hfs with ⟨fs1, hfs1, rfl⟩
      cases h1 : fs1.fields with
      | ftuple l =>
        have ht := hlist fs1 (List.mem_cons_of_mem fs0 hfs1)
        rw [Fieldset.isTuple, h1] at ht
        cases ht
      | flist l =>
        have hc1 : l.count sortable ≤ 1 := by
          have := hdup fs1 (List.mem_cons_of_mem fs0 hfs1)
          rwa [Fieldset.countField, h1] at this
        rw [eraseSortableField, h1, Fieldset.countField]
        simp only [List.count_erase_self]
        omega
    refine ⟨l0, rfl, ?_, ?_, hrest, ?_⟩
    · rw [SortableStackedInlineBase.get_fieldsets, processFieldsets, h0]
      rw [processFieldsets_added sortable rest
        (fun x hx => hlist x (List.mem_cons_of_mem fs0 hx))]
      rfl
    · rw [← List.count_eq_zero]
      exact herase0
    · rw [countFieldTotal]
      rw [List.map_cons, List.sum_cons]
      have hhead : Fieldset.countField
          { fs0 with fields := Fields.flist (sortable :: l0.erase sortable) }
          sortable = 1 := by
        rw [Fieldset.countField]
        simp [List.count_cons_self, herase0]
      rw [hhead]
      have htail : (List.map (fun fs => fs.countField sortable)
          (rest.map (eraseSortableField sortable))).sum = 0 := by
        apply List.sum_eq_zero
        intro x hx
        rcases List.mem_map.1 hx with ⟨fs1, hfs1, rfl⟩
        exact hrest fs1 hfs1
      rw [htail]

/-- Claim C3, witness: the spec's scenario — a grouping
`["name", "order", "description"]` becomes
`["order", "name", "description"]`. -/
theorem get_fieldsets_sortable_first_witness :
    (∃ l0 : List String,
      Fieldset.fields
          { name := "", fields := Fields.flist ["name", "order", "description"] }
        = Fields.flist l0 ∧
      SortableStackedInlineBase.get_fieldsets "order"
          [{ name := "", fields := Fields.flist ["name", "order", "description"] }]
        = Except.ok
            [{ name := "",
               fields := Fields.flist ("order" :: l0.erase "order") }] ∧
      "order" ∉ l0.erase "order" ∧
      (∀ fs ∈ ([] : List Fieldset), fs.countField "order" = 0) ∧
      countFieldTotal
        [{ name := "", fields := Fields.flist ("order" :: l0.erase "order") }]
        "order" = 1) ∧
    SortableStackedInlineBase.get_fieldsets "order"
        [{ name := "", fields := Fields.flist ["name", "order", "description"] }]
      = Except.ok
          [{ name := "",
             fields := Fields.flist ["order", "name", "description"] }] := by
  constructor
  · have h := get_fieldsets_sortable_first "order"
      { name := "", fields := Fields.flist ["name", "order", "description"] }
      [] (by decide) (by decide)
    rcases h with ⟨l0, h1, h2, h3, h4, h5⟩
    exact ⟨l0, h1, h2, h3, h4, h5⟩
  · rfl

/-- Claim C10: whenever any processed field grouping's `fields` value is a
tuple, `get_fieldsets` raises `AssertionError` instead of returning
fieldsets. -/
theorem get_fieldsets_tuple_raises (sortable : String) (fss : List Fieldset)
    (h : ∃ fs ∈ fss, fs.isTuple = true) :
    SortableStackedInlineBase.get_fieldsets sortable fss
      = Except.error AssertionErr.mk :=
  processFieldsets_tuple_error sortable false fss h

/-- Claim C10, witness: a tuple-valued grouping in the second fieldset. -/
theorem get_fieldsets_tuple_raises_witness :
    SortableStackedInlineBase.get_fieldsets "order"
      [{ name := "a", fields := Fields.flist ["x"] },
       { name := "b", fields := Fields.ftuple ["order"] }]
      = Except.error AssertionErr.mk :=
  get_fieldsets_tuple_raises "order"
    [{ name := "a", fields := Fields.flist ["x"] },
     { name := "b", fields := Fields.ftuple ["order"] }]
    (by decide)

/-! ### Lemmas about the reorder persister -/

theorem lastVal_cons (p : Nat × Int) (ms : List (Nat × Int)) (i : Nat)
    (d : Int) :
    lastVal (p :: ms) i d = lastVal ms i (if p.1 == i then p.2 else d) := rfl

theorem applyMoves_eq_map (ms : List (Nat × Int)) :
    ∀ s : List OrderedRecord, applyMoves s ms = s.map (updOrder ms) := by
  induction ms with
  | nil =>
    intro s
    have h : updOrder [] = fun r => r := funext fun r => rfl
    rw [applyMoves, List.foldl_nil, h, List.map_id']
  | cons p ms ih =>
    intro s
    have h1 : applyMoves s (p :: ms) = applyMoves (setOrder s p.1 p.2) ms := rfl
    rw [h1, ih (setOrder s p.1 p.2), setOrder, List.map_map]
    apply List.map_congr_left
    intro r _
    by_cases h : r.id = p.1
    · simp [updOrder, Function.comp, h, lastVal_cons]
    · have hb : (r.id == p.1) = false := by simp [h]
      have hb2 : (p.1 == r.id) = false := by
        simp [Ne.symm h]
      simp [updOrder, Function.comp, hb, hb2, lastVal_cons]

theorem lastVal_cases (i : Nat) :
    ∀ ms : List (Nat × Int),
      (∀ d1 d2 : Int, lastVal ms i d1 = lastVal ms i d2) ∨
      (∀ d : Int, lastVal ms i d = d) := by
  intro ms
  induction ms with
  | nil => exact Or.inr fun d => rfl
  | cons p ms ih =>
    by_cases hp : p.1 == i
    · left
      intro d1 d2
      rw [lastVal_cons, lastVal_cons, hp]
      simp
    · have hp' : (p.1 == i) = false := by
        cases h : p.1 == i
        · rfl
        · exact absurd h hp
      rcases ih with h | h
      · left
        intro d1 d2
        rw [lastVal_cons, lastVal_cons, hp', if_neg (by simp)]
        exact h d1 d2
      · right
        intro d
        rw [lastVal_cons, hp', if_neg (by simp)]
        exact h d

theorem lastVal_idem (ms : List (Nat × Int)) (i : Nat) (d : Int) :
    lastVal ms i (lastVal ms i d) = lastVal ms i d := by
  rcases lastVal_cases i ms with h | h
  · exact h (lastVal ms i d) d
  · rw [h, h]

theorem updOrder_id (ms : List (Nat × Int)) (r : OrderedRecord) :
    (updOrder ms r).id = r.id := rfl

theorem updOrder_scope (ms : List (Nat × Int)) (r : OrderedRecord) :
    (updOrder ms r).scope = r.scope := rfl

theorem findRec_map_updOrder (ms : List (Nat × Int)) (i : Nat) :
    ∀ s : List OrderedRecord,
      findRec (s.map (updOrder ms)) i = (findRec s i).map (updOrder ms) := by
  intro s
  induction s with
  | nil => rfl
  | cons r s ih =>
    rw [findRec, findRec] at ih ⊢
    rw [List.map_cons]
    cases h : r.id == i with
    | true => simp [List.find?, updOrder_id, h]
    | false => simp [List.find?, updOrder_id, h, ih]

theorem moveOk_applyMoves (ms : List (Nat × Int)) (s : List OrderedRecord)
    (scope : Nat) (p : Nat × Int) :
    moveOk (applyMoves s ms) scope p = moveOk s scope p := by
  rw [moveOk, moveOk, applyMoves_eq_map, findRec_map_updOrder]
  cases h : findRec s p.1 with
  | none => rfl
  | some r => rfl

theorem all_moveOk_congr (s : List OrderedRecord) (ms : List (Nat × Int))
    (scope : Nat) :
    ∀ l : List (Nat × Int),
      l.all (moveOk (applyMoves s ms) scope) = l.all (moveOk s scope) := by
  intro l
  induction l with
  | nil => rfl
  | cons p l ih => rw [List.all_cons, List.all_cons, ih, moveOk_applyMoves]

theorem batchValid_applyMoves (s : List OrderedRecord) (b : ReorderBatch) :
    batchValid (applyMoves s b.moves) b = batchValid s b := by
  rw [batchValid, batchValid]
  exact all_moveOk_congr s b.moves b.scope b.moves

theorem applyMoves_idem (s : List OrderedRecord) (ms : List (Nat × Int)) :
    applyMoves (applyMoves s ms) ms = applyMoves s ms := by
  rw [applyMoves_eq_map, applyMoves_eq_map, List.map_map]
  apply List.map_congr_left
  intro r _
  simp [updOrder, Function.comp, lastVal_idem]

/-- Claim C4: a batch containing an identifier that does not exist, or
whose record is not in the batch's scope, makes `OrderPersister.apply`
fail with `ValidationError`, and the stored state after the failed apply
is exactly the state before it — no partial write. -/
theorem persister_invalid_batch_rejected (s : List OrderedRecord)
    (b : ReorderBatch) (p : Nat × Int) (hp : p ∈ b.moves)
    (hbad : moveOk s b.scope p = false) :
    OrderPersister.apply s b = Except.error ValidationErr.mk ∧
    stateAfter s b = s := by
  have hv : batchValid s b = false := by
    cases hall : batchValid s b with
    | false => rfl
    | true =>
      have := (List.all_eq_true.1 hall) p hp
      rw [hbad] at this
      cases this
  constructor
  · rw [OrderPersister.apply, hv]
    rfl
  · rw [stateAfter, OrderPersister.apply, hv]
    rfl

/-- Claim C4, witness: a batch naming the nonexistent identifier 2
against a store holding only identifier 1. -/
theorem persister_invalid_batch_rejected_witness :
    OrderPersister.apply [{ id := 1, scope := 0, order := 5 }]
        { scope := 0, moves := [(2, 7)] }
      = Except.error ValidationErr.mk ∧
    stateAfter [{ id := 1, scope := 0, order := 5 }]
        { scope := 0, moves := [(2, 7)] }
      = [{ id := 1, scope := 0, order := 5 }] :=
  persister_invalid_batch_rejected [{ id := 1, scope := 0, order := 5 }]
    { scope := 0, moves := [(2, 7)] } (2, 7) (by decide) (by decide)

/-- Claim C8: a successful `OrderPersister.apply` is idempotent — applying
the same batch to the resulting state succeeds again and produces exactly
the same stored order values (and hence the same `OrderedView` sequence).
-/
theorem persister_apply_idempotent (s t : List OrderedRecord)
    (b : ReorderBatch) (h : OrderPersister.apply s b = Except.ok t) :
    OrderPersister.apply t b = Except.ok t := by
  rw [OrderPersister.apply] at h
  cases hv : batchValid s b with
  | false =>
    rw [hv] at h
    cases h
  | true =>
    rw [hv, if_pos rfl] at h
    injection h with h
    subst h
    rw [OrderPersister.apply, batchValid_applyMoves, hv, if_pos rfl,
      applyMoves_idem]

/-- Claim C8, witness: swapping two records' orders twice in a row leaves
the state of the first application unchanged. -/
theorem persister_apply_idempotent_witness :
    OrderPersister.apply
        [{ id := 1, scope := 0, order := 2 }, { id := 2, scope := 0, order := 1 }]
        { scope := 0, moves := [(1, 2), (2, 1)] }
      = Except.ok
        [{ id := 1, scope := 0, order := 2 }, { id := 2, scope := 0, order := 1 }] :=
  persister_apply_idempotent
    [{ id := 1, scope := 0, order := 1 }, { id := 2, scope := 0, order := 2 }]
    [{ id := 1, scope := 0, order := 2 }, { id := 2, scope := 0, order := 1 }]
    { scope := 0, moves := [(1, 2), (2, 1)] } rfl

theorem lastVal_not_mem (i : Nat) :
    ∀ (ms : List (Nat × Int)) (d : Int),
      i ∉ ms.map Prod.fst → lastVal ms i d = d := by
  intro ms
  induction ms with
  | nil => intro d _; rfl
  | cons p ms ih =>
    intro d hmem
    rw [List.map_cons, List.mem_cons] at hmem
    push_neg at hmem
    have hp : (p.1 == i) = false := by
      simpa using Ne.symm hmem.1
    rw [lastVal_cons, hp, if_neg (by simp)]
    exact ih d hmem.2

theorem lastVal_of_mem_nodup :
    ∀ ms : List (Nat × Int), (ms.map Prod.fst).Nodup →
      ∀ (i : Nat) (v : Int), (i, v) ∈ ms → ∀ d, lastVal ms i d = v := by
  intro ms
  induction ms with
  | nil => intro _ i v hmem; cases hmem
  | cons p ms ih =>
    intro hnd i v hmem d
    rw [List.map_cons, List.nodup_cons] at hnd
    rcases List.mem_cons.1 hmem with h | h
    · have hp1 : p.1 = i := by rw [← h]
      have hp2 : p.2 = v := by rw [← h]
      have hib : (p.1 == i) = true := by simp [hp1]
      rw [lastVal_cons, hib, if_pos rfl, hp2]
      apply lastVal_not_mem
      rw [← hp1]
      exact hnd.1
    · have hp1 : p.1 ≠ i := by
        intro heq
        apply hnd.1
        rw [heq]
        exact List.mem_map.2 ⟨(i, v), h, rfl⟩
      have hib : (p.1 == i) = false := by simp [hp1]
      rw [lastVal_cons, hib, if_neg (by simp)]
      exact ih hnd.2 i v h d

theorem eq_of_map_recKey_scoped (c : Nat) :
    ∀ l₁ l₂ : List OrderedRecord,
      (∀ r ∈ l₁, r.scope = c) → (∀ r ∈ l₂, r.scope = c) →
      l₁.map recKey = l₂.map recKey → l₁ = l₂ := by
  intro l₁
  induction l₁ with
  | nil =>
    intro l₂ _ _ h
    cases l₂ with
    | nil => rfl
    | cons r2 l2 => simp at h
  | cons r l ih =>
    intro l₂ h1 h2 h
    cases l₂ with
    | nil => simp at h
    | cons r2 l2 =>
      rw [List.map_cons, List.map_cons] at h
      injection h with hh ht
      have hr : r = r2 := by
        have hs1 := h1 r (List.mem_cons_self r l)
        have hs2 := h2 r2 (List.mem_cons_self r2 l2)
        cases r
        cases r2
        simp only [recKey, Prod.mk.injEq] at hh
        simp_all
      subst hr
      rw [ih l2 (fun x hx => h1 x (List.mem_cons_of_mem r hx))
        (fun x hx => h2 x (List.mem_cons_of_mem r hx)) ht]

/-- Claim C5: after a successful apply of a batch that covers its scope
(and with no duplicate identifiers in store or batch), reading the scope
through `OrderedView` yields exactly the sequence determined by the batch's
`new_order` values, with equal values ordered by descending identifier. -/
theorem apply_then_view_matches_batch (s t : List OrderedRecord)
    (b : ReorderBatch)
    (happ : OrderPersister.apply s b = Except.ok t)
    (hsid : (s.map OrderedRecord.id).Nodup)
    (hmid : (b.moves.map Prod.fst).Nodup)
    (hcover : ∀ r ∈ s, r.scope = b.scope → r.id ∈ b.moves.map Prod.fst) :
    orderedView t b.scope = batchSequence b := by
  rw [OrderPersister.apply] at happ
  cases hv : batchValid s b with
  | false =>
    rw [hv] at happ
    cases happ
  | true =>
    rw [hv, if_pos rfl] at happ
    injection happ with happ
    subst happ
    rw [batchValid] at hv
    have hfA : (applyMoves s b.moves).filter (fun r => r.scope == b.scope)
        = (s.filter (fun r => r.scope == b.scope)).map (updOrder b.moves) := by
      rw [applyMoves_eq_map, List.filter_map]
      rfl
    have hAmem : ∀ rec,
        rec ∈ (s.filter (fun r => r.scope == b.scope)).map (updOrder b.moves)
          ↔ rec ∈ b.moves.map
              (fun p => ({ id := p.1, scope := b.scope, order := p.2 }
                : OrderedRecord)) := by
      intro rec
      constructor
      · intro h
        rcases List.mem_map.1 h with ⟨r, hrf, rfl⟩
        rcases List.mem_filter.1 hrf with ⟨hrs, hsc⟩
        have hscope : r.scope = b.scope := by simpa using hsc
        have hid := hcover r hrs hscope
        rcases List.mem_map.1 hid with ⟨q, hq, hq1⟩
        apply List.mem_map.2
        refine ⟨q, hq, ?_⟩
        have hlv : lastVal b.moves r.id r.order = q.2 := by
          have hmemq : (r.id, q.2) ∈ b.moves := by
            rw [← hq1]
            simpa using hq
          exact lastVal_of_mem_nodup b.moves hmid r.id q.2 hmemq r.order
        rw [show updOrder b.moves r
          = OrderedRecord.mk r.id r.scope (lastVal b.moves r.id r.order)
          from rfl, hq1, hscope, hlv]
      · intro h
        rcases List.mem_map.1 h with ⟨q, hq, rfl⟩
        have hmv := List.all_eq_true.1 hv q hq
        rw [moveOk] at hmv
        cases hfind : findRec s q.1 with
        | none =>
          rw [hfind] at hmv
          cases hmv
        | some r =>
          rw [hfind] at hmv
          have hscope : r.scope = b.scope := by simpa using hmv
          have hrs : r ∈ s := List.mem_of_find?_eq_some hfind
          have hrid : r.id = q.1 := by simpa using List.find?_some hfind
          apply List.mem_map.2
          refine ⟨r, List.mem_filter.2 ⟨hrs, by simpa using hscope⟩, ?_⟩
          have hlv : lastVal b.moves r.id r.order = q.2 := by
            have hmemq : (r.id, q.2) ∈ b.moves := by
              rw [hrid]
              simpa using hq
            exact lastVal_of_mem_nodup b.moves hmid r.id q.2 hmemq r.order
          rw [show updOrder b.moves r
            = OrderedRecord.mk r.id r.scope (lastVal b.moves r.id r.order)
            from rfl, hlv, hrid, hscope]
    have hAnodup :
        ((s.filter (fun r => r.scope == b.scope)).map
          (updOrder b.moves)).Nodup := by
      apply List.Nodup.of_map OrderedRecord.id
      rw [List.map_map]
      have hcomp : (OrderedRecord.id ∘ updOrder b.moves) = OrderedRecord.id :=
        funext fun r => rfl
      rw [hcomp]
      exact hsid.sublist ((List.filter_sublist s).map OrderedRecord.id)
    have hBnodup :
        (b.moves.map
          (fun p => ({ id := p.1, scope := b.scope, order := p.2 }
            : OrderedRecord))).Nodup := by
      apply List.Nodup.of_map OrderedRecord.id
      rw [List.map_map]
      have hcomp : (OrderedRecord.id ∘
          fun p : Nat × Int =>
            ({ id := p.1, scope := b.scope, order := p.2 } : OrderedRecord))
          = Prod.fst :=
        funext fun p => rfl
      rw [hcomp]
      exact hmid
    have hperm := (List.perm_ext_iff_of_nodup hAnodup hBnodup).2 hAmem
    rw [orderedView, batchSequence, hfA]
    apply eq_of_map_recKey_scoped b.scope
    · intro r hr
      rcases List.mem_map.1 ((List.mem_insertionSort viewRel).1 hr)
        with ⟨r0, hr0, rfl⟩
      rcases List.mem_filter.1 hr0 with ⟨_, hsc⟩
      simpa using hsc
    · intro r hr
      rcases List.mem_map.1 ((List.mem_insertionSort viewRel).1 hr)
        with ⟨q, hq, rfl⟩
      rfl
    · rw [List.map_insertionSort viewRel keyRel recKey _
        (fun _ _ _ _ => Iff.rfl),
        List.map_insertionSort viewRel keyRel recKey _
        (fun _ _ _ _ => Iff.rfl)]
      exact List.eq_of_perm_of_sorted
        (((List.perm_insertionSort keyRel _).trans
          (hperm.map recKey)).trans (List.perm_insertionSort keyRel _).symm)
        (List.sorted_insertionSort keyRel _)
        (List.sorted_insertionSort keyRel _)

/-- Claim C5, witness: the spec's scenario — records A(id 1, order 1),
B(id 2, order 2), C(id 3, order 3); applying the batch
[(C, 1), (A, 2), (B, 3)] makes the view read [C, A, B]. -/
theorem apply_then_view_matches_batch_witness :
    orderedView
        [{ id := 1, scope := 0, order := 2 }, { id := 2, scope := 0, order := 3 },
         { id := 3, scope := 0, order := 1 }] 0
      = batchSequence { scope := 0, moves := [(3, 1), (1, 2), (2, 3)] } ∧
    orderedView
        [{ id := 1, scope := 0, order := 2 }, { id := 2, scope := 0, order := 3 },
         { id := 3, scope := 0, order := 1 }] 0
      = [{ id := 3, scope := 0, order := 1 }, { id := 1, scope := 0, order := 2 },
         { id := 2, scope := 0, order := 3 }] :=
  ⟨apply_then_view_matches_batch
    [{ id := 1, scope := 0, order := 1 }, { id := 2, scope := 0, order := 2 },
     { id := 3, scope := 0, order := 3 }]
    [{ id := 1, scope := 0, order := 2 }, { id := 2, scope := 0, order := 3 },
     { id := 3, scope := 0, order := 1 }]
    { scope := 0, moves := [(3, 1), (1, 2), (2, 3)] }
    rfl (by decide) (by decide) (by decide),
   by decide⟩
